import Mathlib

/-!
Verification development for the gglsbl Safe Browsing client library.

The Python source is embedded shallowly:
* Python byte strings (`str` under Python 2) become `List Nat` of byte
  values; `bs` converts an ASCII Lean string literal to its byte list.
* The URL canonicalizer (`gglsbl/protocol.py`, `URL.canonical` and
  `URL.url_permutations`) is embedded together with the Python 2
  standard-library routines it calls (`urllib.unquote`, `urllib.quote`,
  `urlparse.urlsplit` and its `hostname`/`port` accessors,
  `posixpath.normpath`, `str.strip`, `str.replace`, `re.sub('\.+','.')`,
  and the numeric-host behaviour of `socket.gethostbyname`, which for a
  purely numeric host resolves it like `inet_aton`).
* Fallible code (Python exceptions) returns `Option`.
All recursion is structural or fuelled so every definition reduces in the
kernel.
-/

/-- Byte list of an ASCII string literal. -/
def bs (s : String) : List Nat := s.data.map Char.toNat

/-- Python `str.isspace` bytes: tab, LF, VT, FF, CR, space. -/
def isPySpace (c : Nat) : Bool := c == 9 || c == 10 || c == 11 || c == 12 || c == 13 || c == 32

/-- Drop elements satisfying `p` from the end of a list. -/
def dropLastWhile (p : Nat → Bool) (l : List Nat) : List Nat :=
  (l.reverse.dropWhile p).reverse

/-- Python `str.strip()`: remove surrounding whitespace. -/
def pyStrip (l : List Nat) : List Nat := dropLastWhile isPySpace (l.dropWhile isPySpace)

/-- Python `s.split(sep)` for a one-byte separator: list of segments. -/
def splitOnByte (c : Nat) : List Nat → List (List Nat)
  | [] => [[]]
  | x :: xs =>
    match splitOnByte c xs with
    | [] => [[]]
    | s :: rest => if x = c then [] :: s :: rest else (x :: s) :: rest

/-- Python `sep.join(parts)` for a one-byte separator. -/
def joinByte (c : Nat) (parts : List (List Nat)) : List Nat := List.intercalate [c] parts

/-- Python `s.split(sep)[-1]` (all bytes after the last occurrence of `c`,
or the whole list when `c` is absent). -/
def afterLastByte (c : Nat) (l : List Nat) : List Nat :=
  match splitOnByte c l with
  | [] => l
  | s :: rest => (s :: rest).getLast (by simp)

/-- Bytes before the first occurrence of `c` (Python `s.split(c, 1)[0]`). -/
def takeUntilByte (c : Nat) (l : List Nat) : List Nat := l.takeWhile (fun x => !(x == c))

/-- First index of byte `c` (Python `s.find(c)`, with `none` for -1). -/
def findIdxOfByte (c : Nat) (l : List Nat) : Option Nat :=
  if l.contains c then some (l.findIdx (fun x => x == c)) else none

/-- ASCII lowercase of one byte (Python 2 `str.lower` touches only A-Z). -/
def asciiLowerByte (c : Nat) : Nat := if 65 ≤ c ∧ c ≤ 90 then c + 32 else c

/-- Python 2 `str.lower()` on bytes. -/
def lowerBytes (l : List Nat) : List Nat := l.map asciiLowerByte

/-- ASCII decimal digit test. -/
def isDigitByte (c : Nat) : Bool := 48 ≤ c && c ≤ 57

/-- ASCII hexadecimal digit test (both cases, as `urllib.unquote` accepts). -/
def isHexByte (c : Nat) : Bool :=
  (48 ≤ c && c ≤ 57) || (65 ≤ c && c ≤ 70) || (97 ≤ c && c ≤ 102)

/-- Value of a hexadecimal digit byte. -/
def hexVal (c : Nat) : Nat :=
  if 48 ≤ c ∧ c ≤ 57 then c - 48 else if 65 ≤ c ∧ c ≤ 70 then c - 55 else c - 87

/-- One segment of Python 2 `urllib.unquote`: a piece that followed a `%`.
If it starts with two hex digits they are decoded, otherwise the `%` is
kept literally. -/
def unquoteSeg (seg : List Nat) : List Nat :=
  match seg with
  | a :: b :: t => if isHexByte a && isHexByte b then (hexVal a * 16 + hexVal b) :: t else 37 :: a :: b :: t
  | _ => 37 :: seg

/-- Python 2 `urllib.unquote`: split on `%` and decode each following pair
of hex digits. -/
def unquote (s : List Nat) : List Nat :=
  match splitOnByte 37 s with
  | [] => s
  | p :: rest => p ++ (rest.map unquoteSeg).flatten

/-- Fuelled fixpoint iteration of `unquote` (the source's `full_unescape`
recurses until `unquote` no longer changes the string; each productive
step strictly shortens the string, so `length + 1` fuel suffices). -/
def fullUnescapeAux : Nat → List Nat → List Nat
  | 0, s => s
  | fuel + 1, s =>
    let u := unquote s
    if u = s then s else fullUnescapeAux fuel u

/-- The source's `full_unescape`: unquote to a fixpoint. -/
def fullUnescape (s : List Nat) : List Nat := fullUnescapeAux (s.length + 1) s

/-- Python 2 `urllib.always_safe`. -/
def alwaysSafeBytes : List Nat :=
  bs "ABCDEFGHIJKLMNOPQRSTUVWXYZabcdefghijklmnopqrstuvwxyz0123456789_.-"

/-- The source's `safe_chars` argument to `urllib.quote` (note: `%` and `#`
are absent, so they get re-escaped). -/
def safeCharsBytes : List Nat :=
  bs "!\"$&'()*+,-./:;<=>?@[\\]^_`{|}~"

/-- Uppercase hex digit byte for a nibble (Python `'%%%02X'` formatting). -/
def hexDigitUpper (n : Nat) : Nat := if n < 10 then 48 + n else 55 + n

/-- The source's `quote` helper: `urllib.quote(s, safe=safe_chars)`. -/
def quoteSafe (s : List Nat) : List Nat :=
  s.flatMap (fun c =>
    if (alwaysSafeBytes ++ safeCharsBytes).contains c then [c]
    else [37, hexDigitUpper (c / 16 % 16), hexDigitUpper (c % 16)])

/-- Python 2 `posixpath.normpath`. -/
def posixNormpath (path : List Nat) : List Nat :=
  if path = [] then [46]
  else
    let initialSlashes : Nat :=
      if path.take 1 = [47] then
        if path.take 2 = [47, 47] ∧ path.take 3 ≠ [47, 47, 47] then 2 else 1
      else 0
    let comps := splitOnByte 47 path
    let newComps := comps.foldl
      (fun acc comp =>
        if comp = [] ∨ comp = [46] then acc
        else if comp ≠ [46, 46] ∨ (initialSlashes = 0 ∧ acc = []) ∨
                (acc ≠ [] ∧ acc.getLast? = some [46, 46]) then acc ++ [comp]
        else if acc ≠ [] then acc.dropLast
        else acc) []
    let p := List.replicate initialSlashes 47 ++ joinByte 47 newComps
    if p = [] then [46] else p

/-- Python `str.replace('//', '/')`: left-to-right, non-overlapping. -/
def replaceDoubleSlash : List Nat → List Nat
  | 47 :: 47 :: t => 47 :: replaceDoubleSlash t
  | x :: t => x :: replaceDoubleSlash t
  | [] => []

/-- Python `host.strip('.')`. -/
def stripDotsEnds (l : List Nat) : List Nat :=
  dropLastWhile (fun c => c == 46) (l.dropWhile (fun c => c == 46))

/-- Helper for `re.sub(r'\.+', '.', host)`: the flag records whether the
previous emitted byte was part of a dot run. -/
def collapseDotsAux : Bool → List Nat → List Nat
  | _, [] => []
  | prevDot, c :: t =>
    if c = 46 then
      if prevDot then collapseDotsAux true t else 46 :: collapseDotsAux true t
    else c :: collapseDotsAux false t

/-- The source's `re.sub(r'\.+', '.', host)`: collapse runs of dots. -/
def collapseDotRuns (l : List Nat) : List Nat := collapseDotsAux false l

/-- Decimal digits accumulator: `none` when a non-digit appears. -/
def decDigitsVal (l : List Nat) : Option Nat :=
  if l ≠ [] ∧ l.all isDigitByte then
    some (l.foldl (fun acc c => acc * 10 + (c - 48)) 0)
  else none

/-- Octal digits accumulator (bytes 48..55), `none` otherwise. -/
def octDigitsVal (l : List Nat) : Option Nat :=
  if l.all (fun c => 48 ≤ c && c ≤ 55) then
    some (l.foldl (fun acc c => acc * 8 + (c - 48)) 0)
  else none

/-- Hex digits accumulator, `none` when empty or a non-hex byte appears. -/
def hexDigitsVal (l : List Nat) : Option Nat :=
  if l ≠ [] ∧ l.all isHexByte then
    some (l.foldl (fun acc c => acc * 16 + hexVal c) 0)
  else none

/-- Decimal rendering of a natural number as bytes (fuelled). -/
def natDecAux : Nat → Nat → List Nat
  | 0, _ => []
  | fuel + 1, n => if n < 10 then [48 + n] else natDecAux fuel (n / 10) ++ [48 + n % 10]

/-- Decimal rendering of a natural number as ASCII bytes. -/
def natDecBytes (n : Nat) : List Nat := natDecAux (n + 1) n

/-- Modelled from the C library: `inet_aton` on a single numeric component
(as `socket.gethostbyname` resolves a purely numeric host). `0x` means
hexadecimal, a leading `0` octal, otherwise decimal; the value must fit
in 32 bits. -/
def inetAtonNum (host : List Nat) : Option Nat :=
  let v? : Option Nat :=
    if host.take 2 = [48, 120] then hexDigitsVal (host.drop 2)
    else if host.take 1 = [48] then octDigitsVal (host.drop 1)
    else decDigitsVal host
  match v? with
  | none => none
  | some v => if v < 4294967296 then some v else none

/-- Dotted-quad rendering of a 32-bit value. -/
def dottedQuad (v : Nat) : List Nat :=
  joinByte 46 [natDecBytes (v / 16777216 % 256), natDecBytes (v / 65536 % 256),
               natDecBytes (v / 256 % 256), natDecBytes (v % 256)]

/-- Modelled from the OS resolver: `socket.gethostbyname` on a purely
numeric (decimal/octal/hex) host; a parse failure raises, hence `none`. -/
def gethostbynameNumeric (host : List Nat) : Option (List Nat) :=
  (inetAtonNum host).map dottedQuad

/-- Python 2 `urlparse.scheme_chars`. -/
def schemeCharsBytes : List Nat :=
  bs "abcdefghijklmnopqrstuvwxyzABCDEFGHIJKLMNOPQRSTUVWXYZ0123456789+-."

/-- Python 2 `urlparse.uses_query`. -/
def usesQueryList : List (List Nat) :=
  [bs "http", bs "wais", bs "imap", bs "https", bs "shttp", bs "mms",
   bs "gopher", bs "rtsp", bs "rtspu", bs "sip", bs "sips", bs "snews",
   bs "tel", bs "fax", bs "fax", bs "telnet", bs "ftp", bs ""]

/-- Python 2 `urlparse.uses_fragment`. -/
def usesFragmentList : List (List Nat) :=
  [bs "ftp", bs "hdl", bs "http", bs "gopher", bs "news", bs "nntp",
   bs "wais", bs "https", bs "shttp", bs "snews", bs "file", bs "prospero", bs ""]

/-- Result of Python 2 `urlparse.urlsplit`. -/
structure PySplitResult where
  scheme : List Nat
  netloc : List Nat
  path : List Nat
  query : List Nat
  fragment : List Nat
deriving Repr, DecidableEq

/-- Python 2 `urlparse._splitnetloc(url, 2)`: the netloc runs to the first
of `/`, `?`, `#`. -/
def splitNetlocAt2 (url : List Nat) : List Nat × List Nat :=
  let rest := url.drop 2
  let netloc := rest.takeWhile (fun c => !(c == 47 || c == 63 || c == 35))
  (netloc, rest.drop netloc.length)

/-- Mismatched square brackets in a netloc raise `ValueError` in
`urlsplit`. -/
def bracketsBad (netloc : List Nat) : Bool :=
  (netloc.contains 91 && !(netloc.contains 93)) ||
  (netloc.contains 93 && !(netloc.contains 91))

/-- Python `s.split(c, 1)`: the part before the first `c` and the part
after it. Only called when `c` occurs. -/
def splitFirstByte (c : Nat) (l : List Nat) : List Nat × List Nat :=
  let pre := takeUntilByte c l
  (pre, l.drop (pre.length + 1))

/-- Shared tail of `urlsplit` after scheme extraction: netloc, fragment and
query splitting. `fast` is true on the `http` fast path, where the
fragment and query are split unconditionally. -/
def urlsplitRest (fast : Bool) (scheme url0 : List Nat) : Option PySplitResult :=
  let (netloc, url1) :=
    if url0.take 2 = [47, 47] then splitNetlocAt2 url0 else ([], url0)
  if url0.take 2 = [47, 47] ∧ bracketsBad netloc then none
  else
    let (url2, fragment) :=
      if (fast ∨ usesFragmentList.contains scheme) ∧ url1.contains 35 then
        splitFirstByte 35 url1
      else (url1, [])
    let (url3, query) :=
      if (fast ∨ usesQueryList.contains scheme) ∧ url2.contains 63 then
        splitFirstByte 63 url2
      else (url2, [])
    some ⟨scheme, netloc, url3, query, fragment⟩

/-- Python 2 `urlparse.urlsplit` (with `allow_fragments=True`), including
the `http` fast path and the check that the text after the colon is not a
bare port number. `none` models the `ValueError` raised on mismatched
brackets. -/
def pyUrlsplit (url0 : List Nat) : Option PySplitResult :=
  let i : Nat := match findIdxOfByte 58 url0 with | some k => k | none => 0
  if i > 0 ∧ url0.take i = bs "http" then
    urlsplitRest true (bs "http") (url0.drop (i + 1))
  else
    let goodScheme := i > 0 ∧ (url0.take i).all (fun c => schemeCharsBytes.contains c) ∧
      (url0.drop (i + 1) = [] ∨ (url0.drop (i + 1)).any (fun c => !(isDigitByte c)))
    let (scheme, url1) :=
      if goodScheme then (lowerBytes (url0.take i), url0.drop (i + 1))
      else ([], url0)
    urlsplitRest false scheme url1

/-- Python 2 `SplitResult.hostname`. -/
def hostnameOf (r : PySplitResult) : Option (List Nat) :=
  let netloc := afterLastByte 64 r.netloc
  if netloc.contains 91 ∧ netloc.contains 93 then
    some (lowerBytes ((takeUntilByte 93 netloc).drop 1))
  else if netloc.contains 58 then some (lowerBytes (takeUntilByte 58 netloc))
  else if netloc = [] then none
  else some (lowerBytes netloc)

/-- Python `int(s, 10)`: optional sign followed by decimal digits. -/
def pyIntOf (s : List Nat) : Option Int :=
  match s with
  | 43 :: t => (decDigitsVal t).map Int.ofNat
  | 45 :: t => (decDigitsVal t).map (fun n => -(n : Int))
  | _ => (decDigitsVal s).map Int.ofNat

/-- Second segment of `s.split(c)` (Python `s.split(c)[1]`). -/
def secondSeg (c : Nat) (l : List Nat) : List Nat :=
  match splitOnByte c l with
  | _ :: s :: _ => s
  | _ => []

/-- Python 2 `SplitResult.port`. Outer `none` models the `ValueError`
raised by `int()` on a malformed port; otherwise the port is kept only
when it lies in 0..65535. -/
def portOf (r : PySplitResult) : Option (Option Nat) :=
  let netloc := afterLastByte 93 (afterLastByte 64 r.netloc)
  if netloc.contains 58 then
    let p := secondSeg 58 netloc
    if p = [] then some none
    else
      match pyIntOf p with
      | none => none
      | some v => if 0 ≤ v ∧ v ≤ 65535 then some (some v.toNat) else some none
  else some none

/-- The source's `URL.canonical` (`gglsbl/protocol.py`): canonical form of
a URL, `none` where the Python code raises. -/
def canonical (input : List Nat) : Option (List Nat) :=
  let url := pyStrip input
  let url := url.filter (fun c => !(c == 10 || c == 13 || c == 9))
  let url := takeUntilByte 35 url
  let url := quoteSafe (fullUnescape url)
  match pyUrlsplit url with
  | none => none
  | some parts0 =>
    let up : List Nat × Option PySplitResult :=
      if parts0.scheme = [] then
        let u2 := bs "http://" ++ url
        (u2, pyUrlsplit u2)
      else (url, some parts0)
    match up.2 with
    | none => none
    | some parts =>
      match hostnameOf parts with
      | none => none
      | some hn =>
        let host := fullUnescape hn
        let path := fullUnescape parts.path
        let query : Option (List Nat) :=
          if parts.query = [] ∧ ¬ up.1.contains 63 then none else some parts.query
        let path := if path = [] then [47] else path
        let hasTrail := path.getLast? = some 47
        let path := replaceDoubleSlash (posixNormpath path)
        let path := if hasTrail ∧ path.getLast? ≠ some 47 then path ++ [47] else path
        match portOf parts with
        | none => none
        | some port =>
          let host := stripDotsEnds host
          let host := lowerBytes (collapseDotRuns host)
          let hostRes : Option (List Nat) :=
            if host ≠ [] ∧ host.all isDigitByte then gethostbynameNumeric host
            else if host.take 2 = [48, 120] ∧ ¬ host.contains 46 then gethostbynameNumeric host
            else some host
          match hostRes with
          | none => none
          | some host2 =>
            let path := if path = [] then [47] else path
            let quotedPath := quoteSafe path
            let quotedHost := quoteSafe host2
            let quotedHost :=
              match port with
              | some p => quotedHost ++ [58] ++ natDecBytes p
              | none => quotedHost
            let c := parts.scheme ++ bs "://" ++ quotedHost ++ quotedPath
            some (match query with | some q => c ++ [63] ++ q | none => c)

/-- Python 2 `urllib.splittype`: `'([^/:]+):'` prefix match; returns the
lowercased scheme and the rest. -/
def splittypeB (url : List Nat) : Option (List Nat) × List Nat :=
  let pre := url.takeWhile (fun c => !(c == 47 || c == 58))
  if pre ≠ [] ∧ url.drop pre.length ≠ [] ∧ (url.drop pre.length).take 1 = [58] then
    (some (lowerBytes pre), url.drop (pre.length + 1))
  else (none, url)

/-- Python 2 `urllib.splithost`: `'^//([^/?]*)(.*)$'`, with the leading
slash restored on a non-absolute remainder. -/
def splithostB (url : List Nat) : Option (List Nat) × List Nat :=
  if url.take 2 = [47, 47] then
    let hp := (url.drop 2).takeWhile (fun c => !(c == 47 || c == 63))
    let path := (url.drop 2).drop hp.length
    let path := if path ≠ [] ∧ path.take 1 ≠ [47] then 47 :: path else path
    (some hp, path)
  else (none, url)

/-- Index of the last occurrence of a byte. -/
def lastIdxOfByte (c : Nat) (l : List Nat) : Option Nat :=
  match findIdxOfByte c l.reverse with
  | some k => some (l.length - 1 - k)
  | none => none

/-- Python 2 `urllib.splituser`, keeping only the host part (the source
discards the user). -/
def splituserHost (host : List Nat) : List Nat := afterLastByte 64 host

/-- Python 2 `urllib.splitport`, keeping only the host part: `'(.*):([0-9]+)$'`
strips a trailing all-digit port after the last colon. -/
def splitportHost (host : List Nat) : List Nat :=
  match lastIdxOfByte 58 host with
  | some k =>
    let after := host.drop (k + 1)
    if after ≠ [] ∧ after.all isDigitByte then host.take k else host
  | none => host

/-- Python `host.strip('/')`. -/
def stripSlashEnds (l : List Nat) : List Nat :=
  dropLastWhile (fun c => c == 47) (l.dropWhile (fun c => c == 47))

/-- Expect one byte `c` at the head. -/
def expectByte (c : Nat) (l : List Nat) : Option (List Nat) :=
  match l with
  | x :: t => if x = c then some t else none
  | [] => none

/-- Consume a nonempty run of decimal digits. -/
def munchDigits (l : List Nat) : Option (List Nat) :=
  let d := l.takeWhile isDigitByte
  if d = [] then none else some (l.drop d.length)

/-- The source's `re.match(r'\d+\.\d+\.\d+\.\d+', host)`: an unanchored
prefix match of four digit runs separated by dots. -/
def ipLikeHost (host : List Nat) : Bool :=
  (((((((munchDigits host).bind (expectByte 46)).bind munchDigits).bind
    (expectByte 46)).bind munchDigits).bind (expectByte 46)).bind munchDigits).isSome

/-- The source's `url_host_permutations` generator, as a list in yield
order. -/
def urlHostPermutationsB (host : List Nat) : List (List Nat) :=
  if ipLikeHost host then [host]
  else
    let parts := splitOnByte 46 host
    let l := min parts.length 5
    (if l > 4 then [host] else []) ++
      (List.range (l - 1)).map (fun i => joinByte 46 (parts.drop (parts.length - (l - i))))

/-- Cumulative directory paths for `url_path_permutations`: up to `k`
leading components of `pparts`, each emitted with a trailing slash. -/
def cumulPaths : List (List Nat) → Nat → List Nat → List (List Nat)
  | _, 0, _ => []
  | [], _ + 1, _ => []
  | part :: rest, k + 1, curr =>
    let curr2 := curr ++ part ++ [47]
    curr2 :: cumulPaths rest k curr2

/-- The source's `url_path_permutations` generator, as a list in yield
order. -/
def urlPathPermutationsB (path : List Nat) : List (List Nat) :=
  (if path ≠ [47] then [path] else []) ++
    (let hasQ := path.contains 63
     let p := if hasQ then takeUntilByte 63 path else path
     (if hasQ then [p] else []) ++
       (let pparts := (splitOnByte 47 p).dropLast
        cumulPaths pparts (min 4 pparts.length) []))

/-- The source's `URL.url_permutations` generator, as a list in yield
order (host-major). `none` models the crash when the URL has no
`//host` part (`splituser(None)` would raise). -/
def urlPermutationsB (url : List Nat) : Option (List (List Nat)) :=
  let addr := (splittypeB url).2
  match splithostB addr with
  | (none, _) => none
  | (some hostport, path) =>
    let host := stripSlashEnds (splitportHost (splituserHost hostport))
    some ((urlHostPermutationsB host).flatMap
      (fun h => (urlPathPermutationsB path).map (fun p => h ++ p)))

/-!
Storage model (`gglsbl/storage.py`, `SqliteStorage` and `HashPrefixList`).

Tables become in-memory lists of rows in insertion order; SQLite's
`current_timestamp` becomes an explicit `now : Nat` argument and
timestamp comparisons become `Nat` comparisons. `BLOB` comparison
(`ORDER BY value`) is memcmp, i.e. lexicographic byte order. SHA-256
itself (`hashlib.sha256(...).digest()`) is an external library call and
is abstracted as a function parameter `h : List Nat → List Nat`; the
base64 transport decoding (`b64decode`) is elided, so response fields
hold already-decoded bytes.
-/

/-- A threat list identity (`ThreatList` in `storage.py`): the triple of
threat type, platform type and threat entry type. -/
structure ThreatListId where
  threatType : String
  platformType : String
  threatEntryType : String
deriving Repr, DecidableEq

/-- The source's `HashPrefixList.__len__`: `int(len(raw_hashes) / prefix_size)`. -/
def hashPrefixListLen (prefixSize : Nat) (rawHashes : List Nat) : Nat :=
  rawHashes.length / prefixSize

/-- Python `range(start, stop, step)` (fuelled; `stop + 1` fuel suffices
for `step ≥ 1`). -/
def pyRangeAux : Nat → Nat → Nat → Nat → List Nat
  | 0, _, _, _ => []
  | fuel + 1, start, stop, step =>
    if start < stop then start :: pyRangeAux fuel (start + step) stop step else []

/-- Python `range(0, stop, step)`. -/
def pyRange0 (stop step : Nat) : List Nat := pyRangeAux (stop + 1) 0 stop step

/-- The source's `HashPrefixList.__iter__`:
`(raw_hashes[i:i+n] for i in range(0, len(raw_hashes), n))`. -/
def hashPrefixListIter (prefixSize : Nat) (rawHashes : List Nat) : List (List Nat) :=
  (pyRange0 rawHashes.length prefixSize).map
    (fun i => (rawHashes.drop i).take prefixSize)

/-- One row of the `hash_prefix` table. -/
structure HashPrefixRow where
  value : List Nat
  cue : List Nat
  tl : ThreatListId
  negativeExpiresAt : Nat
deriving Repr, DecidableEq

/-- One row of the `full_hash` table. -/
structure FullHashRow where
  value : List Nat
  tl : ThreatListId
  expiresAt : Nat
  malwareThreatType : Option (List Nat)
deriving Repr, DecidableEq

/-- The local cache: the three tables of the SQLite schema, rows in
insertion order. `threat_list` rows carry the nullable `client_state`. -/
structure CacheDB where
  threatList : List (ThreatListId × Option String)
  hashPrefixTable : List HashPrefixRow
  fullHashTable : List FullHashRow
deriving Repr, DecidableEq

/-- Lexicographic byte order on BLOB values (memcmp order, the order of
`ORDER BY value` on a BLOB column). -/
def lexLe : List Nat → List Nat → Bool
  | [], _ => true
  | _ :: _, [] => false
  | a :: as0, b :: bs0 => if a < b then true else if b < a then false else lexLe as0 bs0

/-- The prefix values of one threat list, in table order
(`SELECT value FROM hash_prefix WHERE threat_type=? AND ...`). -/
def listValues (db : CacheDB) (tl : ThreatListId) : List (List Nat) :=
  (db.hashPrefixTable.filter (fun r => r.tl = tl)).map (fun r => r.value)

/-- The prefix values of one threat list in `ORDER BY value` order
(insertion sort keeps the model kernel-computable; any sort agrees on
the multiset). -/
def sortedListValues (db : CacheDB) (tl : ThreatListId) : List (List Nat) :=
  List.insertionSort (fun a b => lexLe a b = true) (listValues db tl)

/-- The source's `hash_prefix_list_checksum`: SHA-256 (abstracted as `h`)
of the concatenation of the list's prefix values in `ORDER BY value`
order. -/
def hash_prefix_list_checksum (h : List Nat → List Nat) (db : CacheDB)
    (tl : ThreatListId) : List Nat :=
  h (sortedListValues db tl).flatten

/-- The source's `populate_hash_prefix_list`: bulk `INSERT` of one row per
iterated hash prefix, with `cue = value[0:4]` and `negative_expires_at`
defaulting to `current_timestamp`. -/
def populate_hash_prefix_list (now : Nat) (db : CacheDB) (tl : ThreatListId)
    (prefixSize : Nat) (rawHashes : List Nat) : CacheDB :=
  let newRows := (hashPrefixListIter prefixSize rawHashes).map
    (fun v => (⟨v, v.take 4, tl, now⟩ : HashPrefixRow))
  { db with hashPrefixTable := db.hashPrefixTable ++ newRows }

/-- The source's `delete_hash_prefix_list`: `DELETE FROM hash_prefix WHERE`
the threat list matches. -/
def delete_hash_prefix_list (db : CacheDB) (tl : ThreatListId) : CacheDB :=
  { db with hashPrefixTable := db.hashPrefixTable.filter (fun r => ¬ r.tl = tl) }

/-- The source's `get_hash_prefix_values_to_remove`: walk the list's
values in `ORDER BY value` order with a counter and collect the values
whose position is in `indices` (a set of 0-based positions). -/
def get_hash_prefix_values_to_remove (db : CacheDB) (tl : ThreatListId)
    (indices : List Nat) : List (List Nat) :=
  ((sortedListValues db tl).enum.filter (fun p => indices.contains p.1)).map
    (fun p => p.2)

/-- The source's `remove_hash_prefix_indices`: delete the rows of this
threat list whose value is among the collected values (the SQL runs in
batches of 40, whose union is exactly value-membership in the collected
list). -/
def remove_hash_prefix_indices (db : CacheDB) (tl : ThreatListId)
    (indices : List Nat) : CacheDB :=
  let toRemove := get_hash_prefix_values_to_remove db tl indices
  { db with hashPrefixTable :=
      (db.hashPrefixTable.filter (fun r => ¬ (r.tl = tl ∧ toRemove.contains r.value))) }

/-- The source's `update_threat_list_client_state`: `UPDATE threat_list
SET client_state=? WHERE` the identity matches. -/
def update_threat_list_client_state (db : CacheDB) (tl : ThreatListId)
    (cs : String) : CacheDB :=
  { db with threatList :=
      (db.threatList.map (fun p => if p.1 = tl then (p.1, some cs) else p)) }

/-- Client state recorded for a list: `none` when the list is absent,
`some cs` for a present row with nullable state `cs`. -/
def clientStateOf (db : CacheDB) (tl : ThreatListId) : Option (Option String) :=
  (db.threatList.find? (fun p => p.1 = tl)).map (fun p => p.2)

/-- The source's `lookup_full_hashes`: rows of `full_hash` whose value is
in the queried set, as `(threat_list, has_expired)` with
`has_expired = expires_at < current_timestamp`. -/
def lookup_full_hashes (now : Nat) (db : CacheDB) (values : List (List Nat)) :
    List (ThreatListId × Bool) :=
  (db.fullHashTable.filter (fun r => values.contains r.value)).map
    (fun r => (r.tl, decide (r.expiresAt < now)))

/-- The source's `lookup_hash_prefix`: distinct prefix values whose cue is
in the queried set, each with `MAX(negative_expires_at < now)` over its
rows (true iff the negative cache has expired in at least one list). -/
def lookup_hash_prefix_rows (now : Nat) (db : CacheDB) (cues : List (List Nat)) :
    List (List Nat × Bool) :=
  let rows := db.hashPrefixTable.filter (fun r => cues.contains r.cue)
  ((rows.map (fun r => r.value)).dedup).map
    (fun v => (v, rows.any (fun r => r.value = v && r.negativeExpiresAt < now)))

/-- The source's `store_full_hash`: `INSERT OR IGNORE` of the row keyed by
`(value, threat list)`, then `UPDATE` of its `expires_at` to
`now + cache_duration`. -/
def store_full_hash (now : Nat) (db : CacheDB) (tl : ThreatListId)
    (hashValue : List Nat) (cacheDuration : Nat)
    (malware : Option (List Nat)) : CacheDB :=
  let inserted :=
    if db.fullHashTable.any (fun r => r.value = hashValue && r.tl = tl) then
      db.fullHashTable
    else db.fullHashTable ++ [⟨hashValue, tl, now, malware⟩]
  { db with fullHashTable :=
      (inserted.map (fun r =>
        if r.value = hashValue ∧ r.tl = tl then { r with expiresAt := now + cacheDuration } else r)) }

/-- The source's `update_hash_prefix_expiration`: set
`negative_expires_at = now + duration` for every row with this value. -/
def update_hash_prefix_expiration (now : Nat) (db : CacheDB)
    (value : List Nat) (duration : Nat) : CacheDB :=
  { db with hashPrefixTable :=
      (db.hashPrefixTable.map (fun r =>
        if r.value = value then { r with negativeExpiresAt := now + duration } else r)) }

/-!
Sync engine model (`gglsbl/client.py`, `SafeBrowsingList`).

`_sync_hash_prefix_cache` iterates the per-list update responses,
mutating the connection's uncommitted state; after a verified checksum it
sets the list's `client_state` and commits, and on a mismatch it raises.
`update_hash_prefix_cache` catches any exception and rolls back to the
last committed state. A connection is therefore a pair of database
states. The `cleanup_full_hashes` / `_sync_threat_lists` phases that
precede `_sync_hash_prefix_cache` commit before it runs and do not touch
`client_state`, so they are not modelled here.
-/

/-- An open SQLite connection: the durable (committed) state and the
current uncommitted state. -/
structure Conn where
  committed : CacheDB
  current : CacheDB
deriving Repr, DecidableEq

/-- The source's `commit`. -/
def connCommit (c : Conn) : Conn := ⟨c.current, c.current⟩

/-- The source's `rollback`. -/
def connRollback (c : Conn) : Conn := ⟨c.committed, c.committed⟩

/-- One per-list response of `threatListUpdates.fetch`, fields already
base64-decoded. -/
structure UpdateResponse where
  tl : ThreatListId
  responseType : String
  removals : List (List Nat)
  additions : List (Nat × List Nat)
  newClientState : String
  checksum : List Nat
deriving Repr, DecidableEq

/-- Lowercase hex rendering of bytes (`to_hex` of `gglsbl/utils.py`,
`hexlify`-style). -/
def toHexStr (l : List Nat) : String :=
  String.mk (l.flatMap (fun b =>
    [Char.ofNat (if b / 16 % 16 < 10 then 48 + b / 16 % 16 else 87 + b / 16 % 16),
     Char.ofNat (if b % 16 < 10 then 48 + b % 16 else 87 + b % 16)]))

/-- The exception message raised on a checksum mismatch
(`client.py` line 93). -/
def checksumErrMsg (expectedHex : String) (dbPath : String) : String :=
  "Local cache checksum does not match the server: \"" ++ expectedHex ++
    "\". Consider removing " ++ dbPath

/-- The per-response mutations of `_sync_hash_prefix_cache` before the
checksum check: `delete_hash_prefix_list` on a FULL_UPDATE, then the
removals, then the additions. -/
def applyResponse (now : Nat) (r : UpdateResponse) (db : CacheDB) : CacheDB :=
  let db := if r.responseType = "FULL_UPDATE" then delete_hash_prefix_list db r.tl else db
  let db := r.removals.foldl (fun db idxs => remove_hash_prefix_indices db r.tl idxs) db
  r.additions.foldl (fun db a => populate_hash_prefix_list now db r.tl a.1 a.2) db

/-- The source's `_sync_hash_prefix_cache` loop: apply each response to
the current state, verify the checksum, set `client_state` and commit on
success, raise (returning the exception message) on mismatch. -/
def syncHashPrefixCache (h : List Nat → List Nat) (now : Nat) (dbPath : String) :
    List UpdateResponse → Conn → Conn × Option String
  | [], c => (c, none)
  | r :: rs, c =>
    let cur := applyResponse now r c.current
    if hash_prefix_list_checksum h cur r.tl = r.checksum then
      let cur2 := update_threat_list_client_state cur r.tl r.newClientState
      syncHashPrefixCache h now dbPath rs (connCommit ⟨c.committed, cur2⟩)
    else
      (⟨c.committed, cur⟩, some (checksumErrMsg (toHexStr r.checksum) dbPath))

/-- The source's `update_hash_prefix_cache` around the prefix-cache sync:
on an exception the transaction is rolled back and the exception
re-raised (the preceding cleanup/list-discovery phases commit before
this point and do not touch `client_state`). -/
def updateHashPrefixCache (h : List Nat → List Nat) (now : Nat) (dbPath : String)
    (responses : List UpdateResponse) (c : Conn) : Conn × Option String :=
  match syncHashPrefixCache h now dbPath responses c with
  | (c', some e) => (connRollback c', some e)
  | (c', none) => (c', none)

/-!
Lookup engine model (`gglsbl/client.py`, `_lookup_hashes` and
`_sync_full_hashes`).

The remote `fullHashes.find` response is passed in as data; the returned
flag records whether that remote call was made during the lookup.
-/

/-- One match of a `fullHashes.find` response (fields already decoded). -/
structure FullHashMatch where
  tl : ThreatListId
  hashValue : List Nat
  cacheDuration : Nat
  malwareThreatType : Option (List Nat)
deriving Repr, DecidableEq

/-- A `fullHashes.find` response. -/
structure FullHashResponse where
  matchList : List FullHashMatch
  negativeCacheDuration : Nat
deriving Repr, DecidableEq

/-- The source's `_sync_full_hashes`: store every returned full-hash
match, then refresh the negative-cache expiration of every queried
prefix. -/
def syncFullHashes (now : Nat) (db : CacheDB) (queried : List (List Nat))
    (resp : FullHashResponse) : CacheDB :=
  let db := resp.matchList.foldl
    (fun db m => store_full_hash now db m.tl m.hashValue m.cacheDuration m.malwareThreatType) db
  queried.foldl (fun db v => update_hash_prefix_expiration now db v resp.negativeCacheDuration) db

/-- The prefix rows matching a lookup: entries of `lookup_hash_prefix`
(over the 4-byte cues of the full hashes) whose value is a prefix of at
least one full hash; the source's `matching_prefixes` dict. -/
def matchingPrefixPairs (now : Nat) (db : CacheDB) (fullHashes : List (List Nat)) :
    List (List Nat × Bool) :=
  (lookup_hash_prefix_rows now db (fullHashes.map (fun fh => fh.take 4))).filter
    (fun pe => fullHashes.any (fun fh => pe.1.isPrefixOf fh))

/-- The source's `matching_full_hashes`: the queried full hashes having at
least one matching stored prefix. -/
def matchingFullHashes (now : Nat) (db : CacheDB) (fullHashes : List (List Nat)) :
    List (List Nat) :=
  fullHashes.filter
    (fun fh => (lookup_hash_prefix_rows now db (fullHashes.map (fun g => g.take 4))).any
      (fun pe => pe.1.isPrefixOf fh))

/-- The source's `_lookup_hashes`: returns the matched threat lists, a
flag recording whether the remote `fullHashes.find` call was made, and
the resulting database state. -/
def lookupHashes (now : Nat) (db : CacheDB) (fullHashes : List (List Nat))
    (resp : FullHashResponse) : List ThreatListId × Bool × CacheDB :=
  let prefixPairs := matchingPrefixPairs now db fullHashes
  let matchingFH := matchingFullHashes now db fullHashes
  if prefixPairs = [] then ([], false, db)
  else
    let fhRows := lookup_full_hashes now db matchingFH
    let result := (fhRows.filter (fun x => !x.2)).map (fun x => x.1)
    let expired := (fhRows.filter (fun x => x.2)).map (fun x => x.1)
    if result ≠ [] then (result, false, db)
    else if expired.isEmpty && prefixPairs.all (fun x => !x.2) then ([], false, db)
    else
      let db2 := syncFullHashes now db (prefixPairs.map (fun x => x.1)) resp
      (((lookup_full_hashes now db2 matchingFH).filter (fun x => !x.2)).map (fun x => x.1),
        true, db2)


/-- Structural-recursion presentation of consecutive `n`-byte chunks
(fuelled by the list length), used to reason about
`hashPrefixListIter`. -/
def chunksF : Nat → Nat → List Nat → List (List Nat)
  | 0, _, _ => []
  | fuel + 1, n, raw => if raw = [] then [] else raw.take n :: chunksF fuel n (raw.drop n)

/-- Consecutive `n`-byte chunks of a byte list. -/
def chunksOf (n : Nat) (raw : List Nat) : List (List Nat) := chunksF raw.length n raw

/-- The threat lists returned by a lookup from fresh (non-expired)
full-hash rows: the source's `result` accumulator. -/
def freshLists (now : Nat) (db : CacheDB) (values : List (List Nat)) : List ThreatListId :=
  ((lookup_full_hashes now db values).filter (fun x => !x.2)).map (fun x => x.1)

/-!
Concrete fixtures used by witnesses and counterexamples.
-/

/-- A malware threat list identity. -/
def tlA : ThreatListId := ⟨"MALWARE", "ANY_PLATFORM", "URL"⟩

/-- A social-engineering threat list identity. -/
def tlB : ThreatListId := ⟨"SOCIAL_ENGINEERING", "ANY_PLATFORM", "URL"⟩

/-- An empty cache tracking the two lists with null client states. -/
def db0 : CacheDB := ⟨[(tlA, none), (tlB, none)], [], []⟩

/-- A fresh connection over `db0`. -/
def conn0 : Conn := ⟨db0, db0⟩

/-- A full update for `tlA` adding two prefixes, with the checksum that
matches when the hash function is the identity. -/
def rA : UpdateResponse :=
  ⟨tlA, "FULL_UPDATE", [], [(4, [1, 2, 3, 4, 0, 0, 0, 7])], "sA", [0, 0, 0, 7, 1, 2, 3, 4]⟩

/-- A full update for `tlB` whose checksum does not match. -/
def rB : UpdateResponse := ⟨tlB, "FULL_UPDATE", [], [(4, [9, 9, 9, 9])], "sB", [0]⟩

/-- A cache with three prefixes for `tlA`, for the removal witness. -/
def dbR : CacheDB :=
  ⟨[(tlA, some "x")],
   [⟨[1, 1, 1, 1], [1, 1, 1, 1], tlA, 0⟩, ⟨[0, 0, 0, 1], [0, 0, 0, 1], tlA, 0⟩,
    ⟨[2, 2, 2, 2], [2, 2, 2, 2], tlA, 0⟩], []⟩

/-- A 32-byte full hash starting with the prefix `[1,1,1,1]`. -/
def fh1 : List Nat := [1, 1, 1, 1] ++ List.replicate 28 5

/-- A cache holding the prefix of `fh1` with a current negative cache and
a fresh full-hash row for `fh1`. -/
def dbL : CacheDB :=
  ⟨[(tlA, some "x")], [⟨[1, 1, 1, 1], [1, 1, 1, 1], tlA, 200⟩], [⟨fh1, tlA, 300, none⟩]⟩

/-- A cache holding the prefix of `fh1` with a current negative cache and
no full-hash rows. -/
def dbL2 : CacheDB :=
  ⟨[(tlA, some "x")], [⟨[1, 1, 1, 1], [1, 1, 1, 1], tlA, 200⟩], []⟩


/-- Position of the first occurrence of a value in a list of values (the
counter walk of `get_hash_prefix_values_to_remove`). -/
def idxOfValue (v : List Nat) : List (List Nat) → Nat
  | [] => 0
  | w :: ws => if w = v then 0 else idxOfValue v ws + 1

/-- The committed state after fully applying and committing a sequence of
per-list responses in order (apply mutations, set `client_state`,
commit). -/
def commitChain (h : List Nat → List Nat) (now : Nat) :
    List UpdateResponse → CacheDB → CacheDB
  | [], db => db
  | r :: rs, db =>
    commitChain h now rs
      (update_threat_list_client_state (applyResponse now r db) r.tl r.newClientState)

/-!
Theorems. Claims C1..C10 of the specification are settled below; helper
lemmas carry no claim names.
-/

set_option maxHeartbeats 4000000 in
/-- C7: URL canonicalization maps each input of the spec's scenario table
to exactly the stated output (`%25%32%35` collapse, decimal and hex
integer hosts rendered as dotted IPv4, `..` resolution, scheme
prepending, surrounding-space stripping, `//` collapse in the path but
not the query, and removal of tab/CR/LF bytes). -/
theorem canonical_scenarios :
    canonical (bs "http://host/%25%32%35") = some (bs "http://host/%25") ∧
    canonical (bs "http://3279880203/blah") = some (bs "http://195.127.0.11/blah") ∧
    canonical (bs "http://0xc37f000b/blah") = some (bs "http://195.127.0.11/blah") ∧
    canonical (bs "http://www.google.com/blah/..") = some (bs "http://www.google.com/") ∧
    canonical (bs "www.google.com/") = some (bs "http://www.google.com/") ∧
    canonical (bs "  http://www.google.com/  ") = some (bs "http://www.google.com/") ∧
    canonical (bs "http://host.com//twoslashes?more//slashes") =
      some (bs "http://host.com/twoslashes?more//slashes") ∧
    canonical (bs "http://www.google.com/foo\tbar\rbaz\n2") =
      some (bs "http://www.google.com/foobarbaz2") := by
  exact ⟨rfl, rfl, rfl, rfl, rfl, rfl, rfl, rfl⟩

set_option maxHeartbeats 4000000 in
/-- C8 counterexample: canonicalization is not idempotent. A bracketed
IPv6 host parses to `::1`, whose canonical form re-parses with an empty
host; and for a scheme outside `urlparse.uses_query` the query is folded
into the path, so every pass appends another `?`. -/
theorem canonical_not_idempotent :
    ((canonical (bs "http://[::1]/")).bind canonical ≠ canonical (bs "http://[::1]/") ∧
      canonical (bs "http://[::1]/") = some (bs "http://::1/") ∧
      canonical (bs "http://::1/") = some (bs "http:///")) ∧
    ((canonical (bs "foo://h/p?q")).bind canonical ≠ canonical (bs "foo://h/p?q") ∧
      canonical (bs "foo://h/p?q") = some (bs "foo://h/p?q?") ∧
      canonical (bs "foo://h/p?q?") = some (bs "foo://h/p?q??")) := by
  refine ⟨⟨?_, rfl, rfl⟩, ⟨?_, rfl, rfl⟩⟩ <;> decide

set_option maxHeartbeats 8000000 in
/-- C8 amended: canonicalization is idempotent on each input of the
spec's scenario table (universal idempotence fails, see the
counterexample). -/
theorem canonical_idempotent_on_scenarios :
    (canonical (bs "http://host/%25%32%35")).bind canonical =
      canonical (bs "http://host/%25%32%35") ∧
    (canonical (bs "http://3279880203/blah")).bind canonical =
      canonical (bs "http://3279880203/blah") ∧
    (canonical (bs "http://0xc37f000b/blah")).bind canonical =
      canonical (bs "http://0xc37f000b/blah") ∧
    (canonical (bs "http://www.google.com/blah/..")).bind canonical =
      canonical (bs "http://www.google.com/blah/..") ∧
    (canonical (bs "www.google.com/")).bind canonical =
      canonical (bs "www.google.com/") ∧
    (canonical (bs "  http://www.google.com/  ")).bind canonical =
      canonical (bs "  http://www.google.com/  ") ∧
    (canonical (bs "http://host.com//twoslashes?more//slashes")).bind canonical =
      canonical (bs "http://host.com//twoslashes?more//slashes") ∧
    (canonical (bs "http://www.google.com/foo\tbar\rbaz\n2")).bind canonical =
      canonical (bs "http://www.google.com/foo\tbar\rbaz\n2") := by
  exact ⟨rfl, rfl, rfl, rfl, rfl, rfl, rfl, rfl⟩

set_option maxHeartbeats 4000000 in
/-- C9: the permutation sequence for `http://a.b.c/1/2.html?param=1` is
exactly the eight claimed strings in order; but the generator does not
deduplicate: on `http://a.b.c/1/2/?param=1` (an input of the repo's own
test suite, which expects the deduplicated eight-element answer) it
yields `a.b.c/1/2/` twice, contradicting the claim's "no string occurs
twice". -/
theorem url_permutations_behaviour :
    urlPermutationsB (bs "http://a.b.c/1/2.html?param=1") =
      some [bs "a.b.c/1/2.html?param=1", bs "a.b.c/1/2.html", bs "a.b.c/", bs "a.b.c/1/",
            bs "b.c/1/2.html?param=1", bs "b.c/1/2.html", bs "b.c/", bs "b.c/1/"] ∧
    urlPermutationsB (bs "http://a.b.c/1/2/?param=1") =
      some [bs "a.b.c/1/2/?param=1", bs "a.b.c/1/2/", bs "a.b.c/", bs "a.b.c/1/", bs "a.b.c/1/2/",
            bs "b.c/1/2/?param=1", bs "b.c/1/2/", bs "b.c/", bs "b.c/1/", bs "b.c/1/2/"] ∧
    ¬ ((urlPermutationsB (bs "http://a.b.c/1/2/?param=1")).getD []).Nodup ∧
    canonical (bs "http://a.b.c/1/2/?param=1") = some (bs "http://a.b.c/1/2/?param=1") := by
  refine ⟨rfl, rfl, ?_, rfl⟩
  decide

/-- Empty ranges: no elements when the start is not below the stop. -/
theorem pyRangeAux_nil {s stop step : Nat} (h : ¬ s < stop) :
    ∀ f, pyRangeAux f s stop step = []
  | 0 => rfl
  | f + 1 => by simp [pyRangeAux, h]

/-- The fuel of `pyRangeAux` is irrelevant once it covers `stop - s`. -/
theorem pyRangeAux_fuel : ∀ f g s stop step, 1 ≤ step → stop - s ≤ f → stop - s ≤ g →
    pyRangeAux f s stop step = pyRangeAux g s stop step := by
  intro f
  induction f with
  | zero =>
    intro g s stop step _ hf _
    exact (pyRangeAux_nil (by omega) g).symm
  | succ f IH =>
    intro g s stop step hstep hf hg
    by_cases h : s < stop
    · match g with
      | 0 => omega
      | g + 1 =>
        simp only [pyRangeAux, if_pos h]
        exact congrArg _ (IH g (s + step) stop step hstep (by omega) (by omega))
    · rw [pyRangeAux_nil h, pyRangeAux_nil h]

/-- Shifting the start and stop of a range shifts its elements. -/
theorem pyRangeAux_shift (k : Nat) : ∀ f s stop step,
    pyRangeAux f (s + k) (stop + k) step = (pyRangeAux f s stop step).map (fun i => i + k) := by
  intro f
  induction f with
  | zero => intro s stop step; rfl
  | succ f IH =>
    intro s stop step
    by_cases h : s < stop
    · simp only [pyRangeAux, if_pos h, if_pos (by omega : s + k < stop + k), List.map_cons]
      have : s + k + step = s + step + k := by omega
      rw [this, IH]
    · simp only [pyRangeAux, if_neg h, if_neg (by omega : ¬ s + k < stop + k), List.map_nil]

/-- Chunking the empty list gives no chunks, whatever the fuel. -/
theorem chunksF_nil (f n : Nat) : chunksF f n [] = [] := by
  cases f <;> simp [chunksF]

/-- The fuel of `chunksF` is irrelevant once it covers the list length. -/
theorem chunksF_fuel : ∀ f g n (raw : List Nat), 1 ≤ n → raw.length ≤ f → raw.length ≤ g →
    chunksF f n raw = chunksF g n raw := by
  intro f
  induction f with
  | zero =>
    intro g n raw _ hf _
    have : raw = [] := List.eq_nil_of_length_eq_zero (by omega)
    subst this
    exact (chunksF_nil g n).symm
  | succ f IH =>
    intro g n raw hn hf hg
    match raw with
    | [] => rw [chunksF_nil, chunksF_nil]
    | x :: t =>
      match g with
      | 0 => simp at hg
      | g + 1 =>
        simp only [chunksF, if_neg (by simp : ¬ (x :: t = []))]
        refine congrArg _ (IH g n ((x :: t).drop n) hn ?_ ?_) <;>
          simp only [List.length_drop, List.length_cons] at * <;> omega

/-- Unfolding of `chunksOf` on a nonempty list. -/
theorem chunksOf_cons (n : Nat) (hn : 0 < n) (raw : List Nat) (h : raw ≠ []) :
    chunksOf n raw = raw.take n :: chunksOf n (raw.drop n) := by
  match raw with
  | [] => exact absurd rfl h
  | x :: t =>
    show chunksF (t.length + 1) n (x :: t) = _
    simp only [chunksF, if_neg (by simp : ¬ (x :: t = []))]
    refine congrArg _ (chunksF_fuel t.length ((x :: t).drop n).length n ((x :: t).drop n) hn ?_ le_rfl)
    simp only [List.length_drop, List.length_cons]
    omega

/-- The source's `HashPrefixList.__iter__` produces exactly the
consecutive `n`-byte chunks. -/
theorem iter_eq_chunksOf (n : Nat) (hn : 0 < n) :
    ∀ raw : List Nat, hashPrefixListIter n raw = chunksOf n raw := by
  have main : ∀ L raw, List.length raw = L → hashPrefixListIter n raw = chunksOf n raw := by
    intro L
    induction L using Nat.strong_induction_on with
    | _ L IH =>
      intro raw hL
      match raw, L, hL with
      | [], _, rfl => rfl
      | x :: t, _, rfl =>
        have hL1 : 0 < (x :: t).length := by simp
        show (pyRangeAux ((x :: t).length + 1) 0 (x :: t).length n).map _ = _
        rw [show pyRangeAux ((x :: t).length + 1) 0 (x :: t).length n =
              0 :: pyRangeAux ((x :: t).length) (0 + n) (x :: t).length n by
            simp [pyRangeAux, hL1]]
        rw [chunksOf_cons n hn (x :: t) (by simp)]
        simp only [List.map_cons, List.drop_zero]
        refine congrArg _ ?_
        set raw := x :: t with hraw
        set L := raw.length with hLd
        by_cases hcase : n < L
        · have hshift := pyRangeAux_shift n L 0 (L - n) n
          rw [show (L - n) + n = L by omega] at hshift
          rw [hshift, List.map_map]
          have hslice : ((fun i => (raw.drop i).take n) ∘ fun i => i + n) =
              (fun i => ((raw.drop n).drop i).take n) := by
            funext i
            simp only [Function.comp]
            rw [List.drop_drop]
            congr 2
            omega
          rw [hslice]
          have hfuel : pyRangeAux L 0 (L - n) n = pyRangeAux ((L - n) + 1) 0 (L - n) n :=
            pyRangeAux_fuel L ((L - n) + 1) 0 (L - n) n hn (by omega) (by omega)
          rw [hfuel]
          have hlen : (raw.drop n).length = L - n := by simp [List.length_drop]
          have hrec := IH (raw.drop n).length (by simp only [List.length_drop]; omega) (raw.drop n) rfl
          unfold hashPrefixListIter pyRange0 at hrec
          rw [hlen] at hrec
          exact hrec
        · have hdrop : raw.drop n = [] := List.drop_eq_nil_of_le (by omega)
          rw [pyRangeAux_nil (by omega), hdrop]
          rfl
  intro raw
  exact main raw.length raw rfl

/-- Concatenating the chunks restores the original list. -/
theorem chunksOf_flatten (n : Nat) (hn : 0 < n) :
    ∀ raw : List Nat, (chunksOf n raw).flatten = raw := by
  have main : ∀ L raw, List.length raw = L → (chunksOf n raw).flatten = raw := by
    intro L
    induction L using Nat.strong_induction_on with
    | _ L IH =>
      intro raw hL
      match raw with
      | [] => rfl
      | x :: t =>
        rw [chunksOf_cons n hn (x :: t) (by simp)]
        simp only [List.flatten_cons]
        rw [IH ((x :: t).drop n).length (by subst hL; simp only [List.length_drop, List.length_cons]; omega)
              ((x :: t).drop n) rfl]
        exact List.take_append_drop n (x :: t)
  intro raw
  exact main raw.length raw rfl

/-- When `n` does not divide the length, there is one more chunk than the
floor of the division. -/
theorem chunksOf_count (n : Nat) (hn : 0 < n) :
    ∀ raw : List Nat, ¬ n ∣ raw.length → (chunksOf n raw).length = raw.length / n + 1 := by
  have main : ∀ L raw, List.length raw = L → ¬ n ∣ raw.length →
      (chunksOf n raw).length = raw.length / n + 1 := by
    intro L
    induction L using Nat.strong_induction_on with
    | _ L IH =>
      intro raw hL hdvd
      match raw with
      | [] => exact absurd (dvd_zero n) hdvd
      | x :: t =>
        rw [chunksOf_cons n hn (x :: t) (by simp)]
        by_cases hcase : n < (x :: t).length
        · have hlen : ((x :: t).drop n).length = (x :: t).length - n := by simp
          have hdvd2 : ¬ n ∣ ((x :: t).drop n).length := by
            rw [hlen]
            intro hc
            exact hdvd (by
              have he : (x :: t).length = ((x :: t).length - n) + n := by omega
              rw [he]
              exact Nat.dvd_add hc dvd_rfl)
          have hIH := IH ((x :: t).drop n).length
            (by subst hL; simp only [List.length_drop, List.length_cons]; omega)
            ((x :: t).drop n) rfl hdvd2
          rw [hlen] at hIH
          have key : (x :: t).length / n = ((x :: t).length - n) / n + 1 := by
            conv_lhs => rw [show (x :: t).length = ((x :: t).length - n) + n by omega]
            rw [Nat.add_div_right _ hn]
          simp only [List.length_cons] at hIH key ⊢
          omega
        · have hdrop : (x :: t).drop n = [] := List.drop_eq_nil_of_le (by omega)
          have hlt : (x :: t).length < n := by
            rcases Nat.lt_or_ge ((x :: t).length) n with h | h
            · exact h
            · exfalso
              have he : (x :: t).length = n := by omega
              exact hdvd (he ▸ dvd_rfl)
          rw [hdrop, show chunksOf n ([] : List Nat) = [] from rfl]
          have hz : (x :: t).length / n = 0 := Nat.div_eq_of_lt hlt
          simp only [List.length_cons, List.length_nil] at hz ⊢
          omega
  intro raw
  exact main raw.length raw rfl

/-- When `n` does not divide the length, the final chunk is the remainder
and is shorter than `n`. -/
theorem chunksOf_last (n : Nat) (hn : 0 < n) :
    ∀ raw : List Nat, ¬ n ∣ raw.length →
      ∃ c, (chunksOf n raw).getLast? = some c ∧ c.length = raw.length % n := by
  have main : ∀ L raw, List.length raw = L → ¬ n ∣ raw.length →
      ∃ c, (chunksOf n raw).getLast? = some c ∧ c.length = raw.length % n := by
    intro L
    induction L using Nat.strong_induction_on with
    | _ L IH =>
      intro raw hL hdvd
      match raw with
      | [] => exact absurd (dvd_zero n) hdvd
      | x :: t =>
        rw [chunksOf_cons n hn (x :: t) (by simp)]
        by_cases hcase : n < (x :: t).length
        · have hlen : ((x :: t).drop n).length = (x :: t).length - n := by simp
          have hdvd2 : ¬ n ∣ ((x :: t).drop n).length := by
            rw [hlen]
            intro hc
            exact hdvd (by
              have he : (x :: t).length = ((x :: t).length - n) + n := by omega
              rw [he]
              exact Nat.dvd_add hc dvd_rfl)
          obtain ⟨c, hc1, hc2⟩ := IH ((x :: t).drop n).length
            (by subst hL; simp only [List.length_drop, List.length_cons]; omega)
            ((x :: t).drop n) rfl hdvd2
          refine ⟨c, ?_, ?_⟩
          · match hM : chunksOf n ((x :: t).drop n) with
            | [] => rw [hM] at hc1; simp at hc1
            | y :: ys =>
              rw [hM] at hc1
              rw [List.getLast?_cons_cons]
              exact hc1
          · rw [hc2, hlen]
            conv_rhs => rw [show (x :: t).length = ((x :: t).length - n) + n by omega]
            rw [Nat.add_mod_right]
        · have hdrop : (x :: t).drop n = [] := List.drop_eq_nil_of_le (by omega)
          have hlt : (x :: t).length < n := by
            rcases Nat.lt_or_ge ((x :: t).length) n with h | h
            · exact h
            · exfalso
              have : (x :: t).length = n := by omega
              exact hdvd (this ▸ dvd_rfl)
          rw [hdrop]
          refine ⟨(x :: t).take n, ?_, ?_⟩
          · rfl
          · rw [List.length_take, Nat.mod_eq_of_lt hlt]
            exact min_eq_right (by omega)
  intro raw
  exact main raw.length raw rfl

/-- C10: for `prefix_size` `n > 0`, iterating a `HashPrefixList` yields
the consecutive `n`-byte chunks of the raw bytes in order (so their
concatenation restores the raw bytes), while `len` reports the floor of
`length / n`; when `n` does not divide the length, iteration yields one
chunk more than `len` reports and the final chunk is shorter than `n`. -/
theorem hashPrefixList_spec (n : Nat) (raw : List Nat) (hn : 0 < n) :
    (hashPrefixListIter n raw).flatten = raw ∧
    hashPrefixListLen n raw = raw.length / n ∧
    (¬ n ∣ raw.length →
      (hashPrefixListIter n raw).length = hashPrefixListLen n raw + 1 ∧
      ∃ c, (hashPrefixListIter n raw).getLast? = some c ∧
        c.length = raw.length % n ∧ c.length < n) := by
  rw [iter_eq_chunksOf n hn raw]
  refine ⟨chunksOf_flatten n hn raw, rfl, ?_⟩
  intro hdvd
  refine ⟨chunksOf_count n hn raw hdvd, ?_⟩
  obtain ⟨c, hc1, hc2⟩ := chunksOf_last n hn raw hdvd
  exact ⟨c, hc1, hc2, hc2 ▸ Nat.mod_lt _ hn⟩

/-- Witness for C10 at `n = 3` over nine-minus-one bytes. -/
theorem hashPrefixList_spec_witness :
    0 < 3 ∧
    ((hashPrefixListIter 3 [0, 1, 2, 3, 4, 5, 6, 7]).flatten = [0, 1, 2, 3, 4, 5, 6, 7] ∧
    hashPrefixListLen 3 [0, 1, 2, 3, 4, 5, 6, 7] = 8 / 3 ∧
    (¬ 3 ∣ List.length [0, 1, 2, 3, 4, 5, 6, 7] →
      (hashPrefixListIter 3 [0, 1, 2, 3, 4, 5, 6, 7]).length =
        hashPrefixListLen 3 [0, 1, 2, 3, 4, 5, 6, 7] + 1 ∧
      ∃ c, (hashPrefixListIter 3 [0, 1, 2, 3, 4, 5, 6, 7]).getLast? = some c ∧
        c.length = List.length [0, 1, 2, 3, 4, 5, 6, 7] % 3 ∧ c.length < 3)) :=
  ⟨by decide, hashPrefixList_spec 3 [0, 1, 2, 3, 4, 5, 6, 7] (by decide)⟩

/-- Blob order is total. -/
theorem lexLe_total : ∀ a b : List Nat, (lexLe a b || lexLe b a) = true := by
  intro a
  induction a with
  | nil => intro b; simp [lexLe]
  | cons x xs IH =>
    intro b
    cases b with
    | nil => simp [lexLe]
    | cons y ys =>
      simp only [lexLe]
      by_cases h1 : x < y
      · simp [h1]
      · by_cases h2 : y < x
        · simp [h1, h2]
        · simp [h1, h2, IH ys]

/-- Blob order is transitive. -/
theorem lexLe_trans : ∀ a b c : List Nat,
    lexLe a b = true → lexLe b c = true → lexLe a c = true := by
  intro a
  induction a with
  | nil => intro b c _ _; simp [lexLe]
  | cons x xs IH =>
    intro b c hab hbc
    cases b with
    | nil => simp [lexLe] at hab
    | cons y ys =>
      cases c with
      | nil => simp [lexLe] at hbc
      | cons z zs =>
        simp only [lexLe] at hab hbc ⊢
        by_cases hxy : x < y
        · by_cases hyz : y < z
          · simp [show x < z from Nat.lt_trans hxy hyz]
          · by_cases hzy : z < y
            · rw [if_neg hyz, if_pos hzy] at hbc
              exact absurd hbc (by simp)
            · have hyez : y = z := by omega
              subst hyez
              simp [hxy]
        · by_cases hyx : y < x
          · rw [if_neg hxy, if_pos hyx] at hab
            exact absurd hab (by simp)
          · have hxey : x = y := by omega
            subst hxey
            rw [if_neg (Nat.lt_irrefl x), if_neg (Nat.lt_irrefl x)] at hab
            by_cases hxz : x < z
            · simp [hxz]
            · by_cases hzx : z < x
              · rw [if_neg hxz, if_pos hzx] at hbc
                exact absurd hbc (by simp)
              · have hxez : x = z := by omega
                subst hxez
                rw [if_neg (Nat.lt_irrefl x), if_neg (Nat.lt_irrefl x)] at hbc ⊢
                exact IH ys zs hab hbc

/-- Bulk insertion leaves the `threat_list` table unchanged. -/
theorem populate_threatList (now : Nat) (db : CacheDB) (tl : ThreatListId)
    (n : Nat) (raw : List Nat) :
    (populate_hash_prefix_list now db tl n raw).threatList = db.threatList := rfl

/-- A fold of table mutations that each preserve `threat_list` preserves
it. -/
theorem foldl_threatList {β : Type} (f : CacheDB → β → CacheDB)
    (hf : ∀ db b, (f db b).threatList = db.threatList) :
    ∀ (l : List β) (db : CacheDB), (l.foldl f db).threatList = db.threatList := by
  intro l
  induction l with
  | nil => intro db; rfl
  | cons b bs IH => intro db; rw [List.foldl_cons, IH, hf]

/-- Applying one update response never touches the `threat_list` table. -/
theorem applyResponse_threatList (now : Nat) (r : UpdateResponse) (db : CacheDB) :
    (applyResponse now r db).threatList = db.threatList := by
  simp only [applyResponse]
  rw [foldl_threatList (fun (db : CacheDB) (a : Nat × List Nat) =>
          populate_hash_prefix_list now db r.tl a.1 a.2) (fun db a => rfl),
      foldl_threatList (fun (db : CacheDB) (idxs : List Nat) =>
          remove_hash_prefix_indices db r.tl idxs) (fun db idxs => rfl)]
  split <;> rfl

/-- Bulk insertion for another list leaves this list's values unchanged. -/
theorem populate_values_other (now : Nat) (db : CacheDB) (tl : ThreatListId)
    (n : Nat) (raw : List Nat) (tl0 : ThreatListId) (hne : tl ≠ tl0) :
    listValues (populate_hash_prefix_list now db tl n raw) tl0 = listValues db tl0 := by
  unfold listValues populate_hash_prefix_list
  simp only [List.filter_append, List.map_append]
  have hzero : ((hashPrefixListIter n raw).map
      (fun v => (⟨v, v.take 4, tl, now⟩ : HashPrefixRow))).filter
        (fun r => decide (r.tl = tl0)) = [] := by
    rw [List.filter_eq_nil_iff]
    intro a ha
    obtain ⟨v, _, rfl⟩ := List.mem_map.mp ha
    simpa using hne
  rw [hzero]
  simp

/-- Deleting another list's rows leaves this list's values unchanged. -/
theorem delete_values_other (db : CacheDB) (tl tl0 : ThreatListId) (hne : tl ≠ tl0) :
    listValues (delete_hash_prefix_list db tl) tl0 = listValues db tl0 := by
  unfold listValues delete_hash_prefix_list
  simp only [List.filter_filter]
  refine congrArg _ (List.filter_congr ?_)
  intro r _
  by_cases hr : r.tl = tl0
  · simp [hr, Ne.symm hne]
  · simp [hr]

/-- Index-based removal on another list leaves this list's values
unchanged. -/
theorem remove_values_other (db : CacheDB) (tl : ThreatListId) (idxs : List Nat)
    (tl0 : ThreatListId) (hne : tl ≠ tl0) :
    listValues (remove_hash_prefix_indices db tl idxs) tl0 = listValues db tl0 := by
  unfold listValues remove_hash_prefix_indices
  simp only [List.filter_filter]
  refine congrArg _ (List.filter_congr ?_)
  intro r _
  by_cases hr : r.tl = tl0
  · simp [hr, Ne.symm hne]
  · simp [hr]

/-- A fold of table mutations that each preserve a list's values
preserves them. -/
theorem foldl_values {β : Type} (f : CacheDB → β → CacheDB) (tl0 : ThreatListId)
    (hf : ∀ db b, listValues (f db b) tl0 = listValues db tl0) :
    ∀ (l : List β) (db : CacheDB), listValues (l.foldl f db) tl0 = listValues db tl0 := by
  intro l
  induction l with
  | nil => intro db; rfl
  | cons b bs IH => intro db; rw [List.foldl_cons, IH, hf]

/-- Applying an update response for one list leaves every other list's
stored values unchanged. -/
theorem applyResponse_values_other (now : Nat) (r : UpdateResponse) (db : CacheDB)
    (tl0 : ThreatListId) (hne : r.tl ≠ tl0) :
    listValues (applyResponse now r db) tl0 = listValues db tl0 := by
  simp only [applyResponse]
  rw [foldl_values (fun (db : CacheDB) (a : Nat × List Nat) =>
          populate_hash_prefix_list now db r.tl a.1 a.2) tl0
        (fun db a => populate_values_other now db r.tl a.1 a.2 tl0 hne),
      foldl_values (fun (db : CacheDB) (idxs : List Nat) =>
          remove_hash_prefix_indices db r.tl idxs) tl0
        (fun db idxs => remove_values_other db r.tl idxs tl0 hne)]
  split
  · exact delete_values_other db r.tl tl0 hne
  · rfl

/-- Auxiliary list form of the client-state preservation of
`update_threat_list_client_state` for a different list. -/
theorem find_map_clientState (tl tl0 : ThreatListId) (cs : String) (hne : tl ≠ tl0) :
    ∀ l : List (ThreatListId × Option String),
      ((l.map (fun p => if p.1 = tl then (p.1, some cs) else p)).find?
        (fun p => p.1 = tl0)).map (fun p => p.2) =
      (l.find? (fun p => p.1 = tl0)).map (fun p => p.2) := by
  intro l
  induction l with
  | nil => rfl
  | cons p ps IH =>
    simp only [List.map_cons]
    by_cases hptl : p.1 = tl
    · have hp0 : ¬ p.1 = tl0 := by rw [hptl]; exact hne
      rw [if_pos hptl]
      rw [List.find?_cons_of_neg _ (by simpa using hp0),
          List.find?_cons_of_neg _ (by simpa using hp0)]
      exact IH
    · rw [if_neg hptl]
      by_cases hp0 : p.1 = tl0
      · rw [List.find?_cons_of_pos _ (by simpa using hp0),
            List.find?_cons_of_pos _ (by simpa using hp0)]
      · rw [List.find?_cons_of_neg _ (by simpa using hp0),
            List.find?_cons_of_neg _ (by simpa using hp0)]
        exact IH

/-- Setting one list's client state leaves every other list's client
state unchanged. -/
theorem clientStateOf_update_other (db : CacheDB) (tl : ThreatListId) (cs : String)
    (tl0 : ThreatListId) (hne : tl ≠ tl0) :
    clientStateOf (update_threat_list_client_state db tl cs) tl0 = clientStateOf db tl0 :=
  find_map_clientState tl tl0 cs hne db.threatList

/-- During a pass, the committed values and client state of a list that
none of the responses targets are unchanged. -/
theorem sync_preserves_values (h : List Nat → List Nat) (now : Nat) (dbPath : String) :
    ∀ (rs : List UpdateResponse) (c c' : Conn) (e : Option String) (tl0 : ThreatListId),
      (∀ q ∈ rs, q.tl ≠ tl0) → c.current = c.committed →
      syncHashPrefixCache h now dbPath rs c = (c', e) →
      listValues c'.committed tl0 = listValues c.committed tl0 ∧
      clientStateOf c'.committed tl0 = clientStateOf c.committed tl0 := by
  intro rs
  induction rs with
  | nil =>
    intro c c' e tl0 _ _ hsync
    simp only [syncHashPrefixCache] at hsync
    injection hsync with h1 h2
    subst h1
    exact ⟨rfl, rfl⟩
  | cons r rs IH =>
    intro c c' e tl0 hne hcc hsync
    simp only [syncHashPrefixCache] at hsync
    have hr0 : r.tl ≠ tl0 := hne r (List.mem_cons_self r rs)
    by_cases hck : hash_prefix_list_checksum h (applyResponse now r c.current) r.tl = r.checksum
    · rw [if_pos hck] at hsync
      have hrec := IH _ c' e tl0 (fun q hq => hne q (List.mem_cons_of_mem r hq)) rfl hsync
      constructor
      · rw [hrec.1]
        show listValues
          (update_threat_list_client_state (applyResponse now r c.current) r.tl r.newClientState)
          tl0 = _
        show listValues (applyResponse now r c.current) tl0 = _
        rw [applyResponse_values_other now r _ tl0 hr0, hcc]
      · rw [hrec.2]
        show clientStateOf
          (update_threat_list_client_state (applyResponse now r c.current) r.tl r.newClientState)
          tl0 = _
        rw [clientStateOf_update_other _ _ _ tl0 hr0]
        unfold clientStateOf
        rw [applyResponse_threatList now r c.current, hcc]
    · rw [if_neg hck] at hsync
      injection hsync with h1 h2
      subst h1
      exact ⟨rfl, rfl⟩

/-- C1: `hash_prefix_list_checksum` is the hash (SHA-256, abstracted as
`h`) of the concatenation of the list's stored prefix values in
lexicographic order; and after a pass in which every per-list response
verified (distinct lists, no error), the locally recomputed checksum of
each list equals the checksum carried in that list's response. -/
theorem checksum_spec (h : List Nat → List Nat) :
    (∀ db tl, ∃ vs : List (List Nat),
      vs.Pairwise (fun a b => lexLe a b = true) ∧ vs.Perm (listValues db tl) ∧
      hash_prefix_list_checksum h db tl = h vs.flatten) ∧
    (∀ now dbPath rs (c c' : Conn),
      (rs.map (fun r => r.tl)).Nodup →
      syncHashPrefixCache h now dbPath rs c = (c', none) →
      ∀ r ∈ rs, hash_prefix_list_checksum h c'.committed r.tl = r.checksum) := by
  constructor
  · intro db tl
    have htot : IsTotal (List Nat) (fun a b => lexLe a b = true) :=
      ⟨fun a b => by
        have htt := lexLe_total a b
        by_cases hab : lexLe a b = true
        · exact Or.inl hab
        · refine Or.inr ?_
          simp only [Bool.not_eq_true] at hab
          rw [hab] at htt
          simpa using htt⟩
    have htrans : IsTrans (List Nat) (fun a b => lexLe a b = true) :=
      ⟨fun a b c => lexLe_trans a b c⟩
    exact ⟨sortedListValues db tl,
      @List.sorted_insertionSort _ _ _ htot htrans (listValues db tl),
      List.perm_insertionSort _ (listValues db tl), rfl⟩
  · intro now dbPath rs
    induction rs with
    | nil => intro c c' _ _ r hr; exact absurd hr (List.not_mem_nil r)
    | cons r rs IH =>
      intro c c' hnd hsync r' hr'
      simp only [syncHashPrefixCache] at hsync
      by_cases hck : hash_prefix_list_checksum h (applyResponse now r c.current) r.tl = r.checksum
      · rw [if_pos hck] at hsync
        simp only [List.map_cons, List.nodup_cons] at hnd
        rcases List.mem_cons.mp hr' with rfl | hmem
        · have hpres := sync_preserves_values h now dbPath rs _ c' none r'.tl
            (by
              intro q hq hqeq
              exact hnd.1 (hqeq ▸ List.mem_map_of_mem (fun z => z.tl) hq))
            rfl hsync
          have hstep : listValues c'.committed r'.tl =
              listValues (applyResponse now r' c.current) r'.tl := by
            rw [hpres.1]; rfl
          unfold hash_prefix_list_checksum sortedListValues at hck ⊢
          rw [hstep]
          exact hck
        · exact IH _ c' hnd.2 hsync r' hmem
      · rw [if_neg hck] at hsync
        simp at hsync

/-- Witness for C1: the checksum shape at a concrete cache, and checksum
agreement after a concrete successful pass (hash abstracted as `id`). -/
theorem checksum_spec_witness :
    (∃ vs : List (List Nat),
      vs.Pairwise (fun a b => lexLe a b = true) ∧ vs.Perm (listValues db0 tlA) ∧
      hash_prefix_list_checksum id db0 tlA = id vs.flatten) ∧
    (∀ r ∈ [rA], hash_prefix_list_checksum id
        (syncHashPrefixCache id 0 "/tmp/gsb_v4.db" [rA] conn0).1.committed r.tl = r.checksum) :=
  ⟨(checksum_spec id).1 db0 tlA,
   (checksum_spec id).2 0 "/tmp/gsb_v4.db" [rA] conn0
     (syncHashPrefixCache id 0 "/tmp/gsb_v4.db" [rA] conn0).1 (by decide) (by decide)⟩

/-- A found value is at a position inside the list. -/
theorem idxOfValue_lt (v : List Nat) : ∀ l : List (List Nat), v ∈ l → idxOfValue v l < l.length := by
  intro l
  induction l with
  | nil => intro hv; exact absurd hv (List.not_mem_nil v)
  | cons w ws IH =>
    intro hv
    by_cases hw : w = v
    · simp [idxOfValue, hw]
    · have : v ∈ ws := by
        rcases List.mem_cons.mp hv with h | h
        · exact absurd h.symm hw
        · exact h
      simp only [idxOfValue, if_neg hw, List.length_cons]
      exact Nat.succ_lt_succ (IH this)

/-- The element at the found position is the value. -/
theorem getElem_idxOfValue (v : List Nat) :
    ∀ (l : List (List Nat)), v ∈ l → ∀ h : idxOfValue v l < l.length, l[idxOfValue v l] = v := by
  intro l
  induction l with
  | nil => intro hv _; exact absurd hv (List.not_mem_nil v)
  | cons w ws IH =>
    intro hv h
    by_cases hw : w = v
    · simp [idxOfValue, hw]
    · have hvw : v ∈ ws := by
        rcases List.mem_cons.mp hv with hh | hh
        · exact absurd hh.symm hw
        · exact hh
      simp only [idxOfValue, if_neg hw]
      simp only [List.getElem_cons_succ]
      exact IH hvw (by
        have := idxOfValue_lt v ws hvw
        omega)

/-- On a duplicate-free list, the position of the element at `i` is `i`. -/
theorem idxOfValue_getElem :
    ∀ (l : List (List Nat)), l.Nodup → ∀ i (h : i < l.length), idxOfValue l[i] l = i := by
  intro l
  induction l with
  | nil => intro _ i h; simp at h
  | cons w ws IH =>
    intro hnd i h
    match i with
    | 0 => simp [idxOfValue]
    | i + 1 =>
      have hi : i < ws.length := by
        simp only [List.length_cons] at h
        omega
      have hmem : ws[i] ∈ ws := List.getElem_mem hi
      have hw : ¬ w = ws[i] := by
        intro he
        exact (List.nodup_cons.mp hnd).1 (he ▸ hmem)
      simp only [List.getElem_cons_succ]
      show (if w = ws[i] then 0 else idxOfValue ws[i] ws + 1) = i + 1
      rw [if_neg hw, IH (List.nodup_cons.mp hnd).2 i hi]

/-- A collected removal value is exactly a sorted value whose position is
in the index set (requires distinct values). -/
theorem mem_values_to_remove (db : CacheDB) (tl : ThreatListId) (indices : List Nat)
    (hnd : (listValues db tl).Nodup) (v : List Nat) (hv : v ∈ sortedListValues db tl) :
    ((get_hash_prefix_values_to_remove db tl indices).contains v = true ↔
      indices.contains (idxOfValue v (sortedListValues db tl)) = true) := by
  have hndS : (sortedListValues db tl).Nodup :=
    ((List.perm_insertionSort _ (listValues db tl)).nodup_iff).mpr hnd
  unfold get_hash_prefix_values_to_remove
  rw [List.elem_iff]
  constructor
  · intro hmem
    obtain ⟨p, hp, hpv⟩ := List.mem_map.mp hmem
    obtain ⟨hpe, hpi⟩ := List.mem_filter.mp hp
    have hget : (sortedListValues db tl)[p.1]? = some p.2 :=
      List.mem_enum_iff_getElem?.mp hpe
    have hlt : p.1 < (sortedListValues db tl).length := by
      by_contra hge
      rw [List.getElem?_eq_none (by omega)] at hget
      exact Option.noConfusion hget
    have hgv : (sortedListValues db tl)[p.1] = v := by
      rw [List.getElem?_eq_getElem hlt] at hget
      rw [Option.some_inj] at hget
      rw [hget, hpv]
    have hpidx : idxOfValue v (sortedListValues db tl) = p.1 := by
      rw [← hgv]
      exact idxOfValue_getElem (sortedListValues db tl) hndS p.1 hlt
    rw [hpidx]
    exact hpi
  · intro hidx
    have hlt : idxOfValue v (sortedListValues db tl) < (sortedListValues db tl).length :=
      idxOfValue_lt v (sortedListValues db tl) hv
    refine List.mem_map.mpr ⟨(idxOfValue v (sortedListValues db tl), v), ?_, rfl⟩
    refine List.mem_filter.mpr ⟨?_, hidx⟩
    refine List.mem_enum_iff_getElem?.mpr ?_
    rw [List.getElem?_eq_getElem hlt, getElem_idxOfValue v (sortedListValues db tl) hv hlt]

/-- C2: with pairwise-distinct stored values, `remove_hash_prefix_indices`
deletes exactly the rows of the target list whose 0-based position in
the lexicographically sorted value order lies in the index set; rows at
other positions and rows of other threat lists survive. -/
theorem remove_indices_spec (db : CacheDB) (tl : ThreatListId) (indices : List Nat)
    (hnd : (listValues db tl).Nodup) :
    (remove_hash_prefix_indices db tl indices).hashPrefixTable =
      db.hashPrefixTable.filter (fun r =>
        ¬ (r.tl = tl ∧ indices.contains (idxOfValue r.value (sortedListValues db tl)) = true)) := by
  unfold remove_hash_prefix_indices
  show db.hashPrefixTable.filter _ = db.hashPrefixTable.filter _
  refine List.filter_congr ?_
  intro r hr
  by_cases htl : r.tl = tl
  · have hmemv : r.value ∈ listValues db tl := by
      unfold listValues
      exact List.mem_map.mpr ⟨r, List.mem_filter.mpr ⟨hr, by simpa using htl⟩, rfl⟩
    have hmems : r.value ∈ sortedListValues db tl :=
      ((List.perm_insertionSort _ (listValues db tl)).mem_iff).mpr hmemv
    have hkey := mem_values_to_remove db tl indices hnd r.value hmems
    have hmemiff : r.value ∈ get_hash_prefix_values_to_remove db tl indices ↔
        idxOfValue r.value (sortedListValues db tl) ∈ indices := by
      rw [← List.elem_iff, ← List.elem_iff]
      exact hkey
    simp only [htl]
    simp [hmemiff]
  · simp [htl]

/-- Witness for C2 at a concrete three-row cache, removing sorted
position 1. -/
theorem remove_indices_spec_witness :
    (listValues dbR tlA).Nodup ∧
    (remove_hash_prefix_indices dbR tlA [1]).hashPrefixTable =
      dbR.hashPrefixTable.filter (fun r =>
        ¬ (r.tl = tlA ∧ [1].contains (idxOfValue r.value (sortedListValues dbR tlA)) = true)) :=
  ⟨by decide, remove_indices_spec dbR tlA [1] (by decide)⟩

/-- C3 counterexample: an update pass is not atomic across lists. With
two tracked lists and a pass whose first response verifies but whose
second response's checksum mismatches, the pass raises, yet the stored
state has the first list advanced to its new client state while the
second is not advanced. -/
theorem update_pass_not_atomic :
    (updateHashPrefixCache id 0 "/tmp/gsb_v4.db" [rA, rB] conn0).2.isSome = true ∧
    clientStateOf (updateHashPrefixCache id 0 "/tmp/gsb_v4.db" [rA, rB] conn0).1.committed tlA =
      some (some "sA") ∧
    clientStateOf (updateHashPrefixCache id 0 "/tmp/gsb_v4.db" [rA, rB] conn0).1.committed tlB =
      some none ∧
    clientStateOf conn0.committed tlA = some none ∧
    clientStateOf conn0.committed tlB = some none := by
  refine ⟨rfl, ?_, ?_, rfl, rfl⟩ <;> rfl

/-- C3 amended: a pass commits per list, not atomically. The stored
(committed) state after `_sync_hash_prefix_cache` is the result of fully
applying and committing some prefix of the per-list responses: all of
them exactly when no error is raised, and a strict prefix (the responses
before the failing one) when a checksum mismatch aborts the pass. -/
theorem sync_commits_initial_responses (h : List Nat → List Nat) (now : Nat) (dbPath : String) :
    ∀ (rs : List UpdateResponse) (c c' : Conn) (e : Option String),
      c.current = c.committed →
      syncHashPrefixCache h now dbPath rs c = (c', e) →
      ∃ k ≤ rs.length, c'.committed = commitChain h now (rs.take k) c.committed ∧
        (e = none → k = rs.length) ∧ (e ≠ none → k < rs.length) := by
  intro rs
  induction rs with
  | nil =>
    intro c c' e hcc hsync
    simp only [syncHashPrefixCache] at hsync
    injection hsync with h1 h2
    subst h1
    subst h2
    exact ⟨0, Nat.le_refl 0, rfl, fun _ => rfl, fun he => absurd rfl he⟩
  | cons r rs IH =>
    intro c c' e hcc hsync
    simp only [syncHashPrefixCache] at hsync
    by_cases hck : hash_prefix_list_checksum h (applyResponse now r c.current) r.tl = r.checksum
    · rw [if_pos hck] at hsync
      obtain ⟨k, hk, hcomm, he1, he2⟩ := IH _ c' e rfl hsync
      refine ⟨k + 1, by simp only [List.length_cons]; omega, ?_, ?_, ?_⟩
      · rw [hcomm, List.take_succ_cons]
        show commitChain h now (rs.take k)
            (update_threat_list_client_state (applyResponse now r c.current) r.tl
              r.newClientState) =
          commitChain h now (rs.take k)
            (update_threat_list_client_state (applyResponse now r c.committed) r.tl
              r.newClientState)
        rw [hcc]
      · intro he
        simp only [List.length_cons, he1 he]
      · intro he
        have := he2 he
        simp only [List.length_cons]
        omega
    · rw [if_neg hck] at hsync
      injection hsync with h1 h2
      subst h1
      refine ⟨0, Nat.zero_le _, rfl, ?_, ?_⟩
      · intro he
        rw [← h2] at he
        exact absurd he (by simp)
      · intro _
        simp only [List.length_cons]
        omega

/-- Witness for C3's amended theorem at the concrete two-response pass
whose second response fails verification. -/
theorem sync_commits_initial_responses_witness :
    ∃ k ≤ [rA, rB].length,
      (syncHashPrefixCache id 0 "/tmp/gsb_v4.db" [rA, rB] conn0).1.committed =
        commitChain id 0 ([rA, rB].take k) conn0.committed ∧
      ((syncHashPrefixCache id 0 "/tmp/gsb_v4.db" [rA, rB] conn0).2 = none →
        k = [rA, rB].length) ∧
      ((syncHashPrefixCache id 0 "/tmp/gsb_v4.db" [rA, rB] conn0).2 ≠ none →
        k < [rA, rB].length) :=
  sync_commits_initial_responses id 0 "/tmp/gsb_v4.db" [rA, rB] conn0
    (syncHashPrefixCache id 0 "/tmp/gsb_v4.db" [rA, rB] conn0).1
    (syncHashPrefixCache id 0 "/tmp/gsb_v4.db" [rA, rB] conn0).2 rfl rfl

/-- On a failing pass, the raised message is the checksum error of the
first failing response, and that response's list keeps its committed
client state. -/
theorem sync_fail_spec (h : List Nat → List Nat) (now : Nat) (dbPath : String) :
    ∀ (rs : List UpdateResponse) (c c' : Conn) (msg : String),
      c.current = c.committed → (rs.map (fun r => r.tl)).Nodup →
      syncHashPrefixCache h now dbPath rs c = (c', some msg) →
      ∃ pre r post, rs = pre ++ r :: post ∧
        msg = checksumErrMsg (toHexStr r.checksum) dbPath ∧
        clientStateOf c'.committed r.tl = clientStateOf c.committed r.tl := by
  intro rs
  induction rs with
  | nil =>
    intro c c' msg _ _ hsync
    simp only [syncHashPrefixCache] at hsync
    injection hsync with h1 h2
    exact Option.noConfusion h2
  | cons r rs IH =>
    intro c c' msg hcc hnd hsync
    simp only [syncHashPrefixCache] at hsync
    simp only [List.map_cons, List.nodup_cons] at hnd
    by_cases hck : hash_prefix_list_checksum h (applyResponse now r c.current) r.tl = r.checksum
    · rw [if_pos hck] at hsync
      obtain ⟨pre, rb, post, hsplit, hmsg, hcs⟩ := IH _ c' msg rfl hnd.2 hsync
      have hrbmem : rb ∈ rs := by
        rw [hsplit]
        exact List.mem_append_right pre (List.mem_cons_self rb post)
      have hne : r.tl ≠ rb.tl := by
        intro heq
        exact hnd.1 (heq ▸ List.mem_map_of_mem (fun z => z.tl) hrbmem)
      refine ⟨r :: pre, rb, post, by simp [hsplit], hmsg, ?_⟩
      rw [hcs]
      show clientStateOf
          (update_threat_list_client_state (applyResponse now r c.current) r.tl r.newClientState)
          rb.tl = _
      rw [clientStateOf_update_other _ _ _ _ hne]
      unfold clientStateOf
      rw [applyResponse_threatList now r c.current, hcc]
    · rw [if_neg hck] at hsync
      injection hsync with h1 h2
      injection h2 with h2
      subst h1
      exact ⟨[], r, rs, rfl, h2.symm, rfl⟩

/-- The checksum error message contains the expected checksum's hex
rendering and the cache path as substrings. -/
theorem checksumErrMsg_contains (hex dbPath : String) :
    hex.data <:+: (checksumErrMsg hex dbPath).data ∧
    dbPath.data <:+: (checksumErrMsg hex dbPath).data := by
  constructor
  · refine ⟨("Local cache checksum does not match the server: \"" : String).data,
      (("\". Consider removing " : String) ++ dbPath).data, ?_⟩
    simp [checksumErrMsg, String.data_append, List.append_assoc]
  · refine ⟨(("Local cache checksum does not match the server: \"" : String) ++ hex ++
      ("\". Consider removing " : String)).data, [], ?_⟩
    simp [checksumErrMsg, String.data_append, List.append_assoc]

/-- C4: when a per-list response's server checksum differs from the
locally recomputed one, the pass raises; the message carries the
expected checksum (hex) and the cache-deletion hint naming the database
path; the transaction is rolled back, and the failing list's stored
client state is unchanged from before the pass. -/
theorem checksum_mismatch_spec (h : List Nat → List Nat) (now : Nat) (dbPath : String)
    (rs : List UpdateResponse) (c c' : Conn) (msg : String)
    (hcc : c.current = c.committed)
    (hnd : (rs.map (fun r => r.tl)).Nodup)
    (hrun : updateHashPrefixCache h now dbPath rs c = (c', some msg)) :
    ∃ pre r post, rs = pre ++ r :: post ∧
      msg = checksumErrMsg (toHexStr r.checksum) dbPath ∧
      (toHexStr r.checksum).data <:+: msg.data ∧
      dbPath.data <:+: msg.data ∧
      clientStateOf c'.committed r.tl = clientStateOf c.committed r.tl ∧
      c'.current = c'.committed := by
  unfold updateHashPrefixCache at hrun
  cases hS : syncHashPrefixCache h now dbPath rs c with
  | mk c1 e1 =>
    rw [hS] at hrun
    match e1, hrun with
    | some m, hrun =>
      injection hrun with h1 h2
      injection h2 with h2
      obtain ⟨pre, r, post, hsplit, hmsg, hcs⟩ := sync_fail_spec h now dbPath rs c c1 m hcc hnd hS
      subst h2
      refine ⟨pre, r, post, hsplit, hmsg, ?_, ?_, ?_, ?_⟩
      · rw [hmsg]
        exact (checksumErrMsg_contains (toHexStr r.checksum) dbPath).1
      · rw [hmsg]
        exact (checksumErrMsg_contains (toHexStr r.checksum) dbPath).2
      · rw [← h1]
        exact hcs
      · rw [← h1]
        rfl

/-- Witness for C4 at a concrete one-response failing pass. -/
theorem checksum_mismatch_spec_witness :
    ∃ pre r post, [rB] = pre ++ r :: post ∧
      checksumErrMsg (toHexStr rB.checksum) "/tmp/gsb_v4.db" =
        checksumErrMsg (toHexStr r.checksum) "/tmp/gsb_v4.db" ∧
      (toHexStr r.checksum).data <:+:
        (checksumErrMsg (toHexStr rB.checksum) "/tmp/gsb_v4.db").data ∧
      ("/tmp/gsb_v4.db" : String).data <:+:
        (checksumErrMsg (toHexStr rB.checksum) "/tmp/gsb_v4.db").data ∧
      clientStateOf (updateHashPrefixCache id 0 "/tmp/gsb_v4.db" [rB] conn0).1.committed r.tl =
        clientStateOf conn0.committed r.tl ∧
      (updateHashPrefixCache id 0 "/tmp/gsb_v4.db" [rB] conn0).1.current =
        (updateHashPrefixCache id 0 "/tmp/gsb_v4.db" [rB] conn0).1.committed :=
  checksum_mismatch_spec id 0 "/tmp/gsb_v4.db" [rB] conn0
    (updateHashPrefixCache id 0 "/tmp/gsb_v4.db" [rB] conn0).1
    (checksumErrMsg (toHexStr rB.checksum) "/tmp/gsb_v4.db") rfl (by decide) (by decide)

/-- C5: when at least one matching full hash has a fresh (non-expired)
stored full-hash row, the lookup returns the threat lists of the fresh
rows and makes no remote `fullHashes.find` call, leaving the cache
unchanged. -/
theorem lookup_positive_cache (now : Nat) (db : CacheDB) (fhs : List (List Nat))
    (resp : FullHashResponse)
    (hfresh : ∃ r ∈ db.fullHashTable,
      r.value ∈ matchingFullHashes now db fhs ∧ ¬ r.expiresAt < now) :
    lookupHashes now db fhs resp =
      (freshLists now db (matchingFullHashes now db fhs), false, db) := by
  obtain ⟨r, hrmem, hrv, hrexp⟩ := hfresh
  have hfhmem := List.mem_filter.mp hrv
  obtain ⟨pe, hpe, hpiso⟩ := List.any_eq_true.mp hfhmem.2
  have hpp : pe ∈ matchingPrefixPairs now db fhs := by
    unfold matchingPrefixPairs
    refine List.mem_filter.mpr ⟨hpe, ?_⟩
    exact List.any_eq_true.mpr ⟨r.value, hfhmem.1, hpiso⟩
  have h1 : matchingPrefixPairs now db fhs ≠ [] := List.ne_nil_of_mem hpp
  have hrow : (r.tl, decide (r.expiresAt < now)) ∈
      lookup_full_hashes now db (matchingFullHashes now db fhs) := by
    unfold lookup_full_hashes
    refine List.mem_map.mpr ⟨r, List.mem_filter.mpr ⟨hrmem, ?_⟩, rfl⟩
    exact List.elem_iff.mpr hrv
  have hrow2 : (r.tl, decide (r.expiresAt < now)) ∈
      (lookup_full_hashes now db (matchingFullHashes now db fhs)).filter
        (fun x => !x.2) := by
    refine List.mem_filter.mpr ⟨hrow, ?_⟩
    rw [decide_eq_false hrexp]
    rfl
  have h2 : ((lookup_full_hashes now db (matchingFullHashes now db fhs)).filter
      (fun x => !x.2)).map (fun x => x.1) ≠ [] :=
    List.ne_nil_of_mem (List.mem_map_of_mem (fun x => x.1) hrow2)
  simp only [lookupHashes]
  rw [if_neg h1, if_pos h2]
  rfl

/-- Witness for C5 at a concrete cache holding a fresh full-hash row for
the probed hash. -/
theorem lookup_positive_cache_witness :
    (∃ r ∈ dbL.fullHashTable,
      r.value ∈ matchingFullHashes 100 dbL [fh1] ∧ ¬ r.expiresAt < 100) ∧
    lookupHashes 100 dbL [fh1] ⟨[], 0⟩ =
      (freshLists 100 dbL (matchingFullHashes 100 dbL [fh1]), false, dbL) :=
  ⟨⟨⟨fh1, tlA, 300, none⟩, by decide, by decide, by decide⟩,
   lookup_positive_cache 100 dbL [fh1] ⟨[], 0⟩
     ⟨⟨fh1, tlA, 300, none⟩, by decide, by decide, by decide⟩⟩

/-- C6 counterexample: the claim's hypotheses (a prefix matched, no
expired full-hash rows, negative cache current for every matched prefix)
do not force an empty answer: a fresh full-hash row makes the lookup
return its threat list. -/
theorem lookup_negative_cache_counterexample :
    matchingPrefixPairs 100 dbL [fh1] ≠ [] ∧
    ((lookup_full_hashes 100 dbL (matchingFullHashes 100 dbL [fh1])).filter
      (fun x => x.2)).isEmpty = true ∧
    (matchingPrefixPairs 100 dbL [fh1]).all (fun x => !x.2) = true ∧
    lookupHashes 100 dbL [fh1] ⟨[], 0⟩ = ([tlA], false, dbL) := by
  refine ⟨by decide, by decide, by decide, by decide⟩

/-- C6 amended: when a prefix matched, no stored full-hash row (fresh or
expired) matches any of the matching full hashes, and the negative cache
is current for every matched prefix, the lookup returns empty with no
remote call. (The unamended claim admitted fresh rows, which instead
produce a positive answer; see the counterexample.) -/
theorem lookup_negative_cache (now : Nat) (db : CacheDB) (fhs : List (List Nat))
    (resp : FullHashResponse)
    (hmatch : matchingPrefixPairs now db fhs ≠ [])
    (hnoexp : ∀ r ∈ db.fullHashTable,
      r.value ∈ matchingFullHashes now db fhs → ¬ r.expiresAt < now)
    (hnofresh : ∀ r ∈ db.fullHashTable,
      r.value ∈ matchingFullHashes now db fhs → r.expiresAt < now)
    (hneg : (matchingPrefixPairs now db fhs).all (fun x => !x.2) = true) :
    lookupHashes now db fhs resp = ([], false, db) := by
  have hrows : lookup_full_hashes now db (matchingFullHashes now db fhs) = [] := by
    unfold lookup_full_hashes
    have hfil : db.fullHashTable.filter
        (fun r => (matchingFullHashes now db fhs).contains r.value) = [] := by
      rw [List.filter_eq_nil_iff]
      intro r hr hc
      have hmem : r.value ∈ matchingFullHashes now db fhs := List.elem_iff.mp hc
      exact hnoexp r hr hmem (hnofresh r hr hmem)
    rw [hfil]
    rfl
  simp only [lookupHashes]
  rw [if_neg hmatch, hrows]
  simp [hneg]

/-- Witness for C6's amended theorem at a concrete cache with a current
negative cache and no stored full-hash rows. -/
theorem lookup_negative_cache_witness :
    (matchingPrefixPairs 100 dbL2 [fh1] ≠ [] ∧
      (matchingPrefixPairs 100 dbL2 [fh1]).all (fun x => !x.2) = true) ∧
    lookupHashes 100 dbL2 [fh1] ⟨[], 0⟩ = ([], false, dbL2) :=
  ⟨⟨by decide, by decide⟩,
   lookup_negative_cache 100 dbL2 [fh1] ⟨[], 0⟩ (by decide)
     (by intro r hr; exact absurd hr (List.not_mem_nil r))
     (by intro r hr; exact absurd hr (List.not_mem_nil r)) (by decide)⟩
